import Mathlib

/-
  Verification of the arXiv data-acquisition pipeline (scripts/).

  The Python sources are shallowly embedded below:
  * pure string/formatting helpers become Lean functions on `Nat` / `List Char`;
  * the worker loops become functions over the list of queue items they consume;
  * the concurrent pipeline becomes a small-step transition system;
  * external effects (network fetches, filesystem writes, tar extraction)
    become explicit oracle parameters.
  Loops whose termination depends on a runtime bound are written with an
  explicit fuel parameter that provably exceeds the number of iterations the
  Python loop can perform, so that every definition evaluates by `decide`.
-/

namespace ArxivPipeline

/-! ### Decimal rendering (embedding of Python `f"{n:0wd}"` formatting) -/

/-- Decimal digits of `n`, least significant first, as characters.
The fuel argument dominates the number of divisions by 10 (any fuel `≥ n`
suffices, since `n / 10 < n` for `n > 0`). -/
def decDigitsAux : Nat → Nat → List Char
  | 0, _ => []
  | fuel + 1, n => if n = 0 then [] else Char.ofNat (48 + n % 10) :: decDigitsAux fuel (n / 10)

/-- Decimal rendering of a natural number, most significant digit first
(the embedding of Python's `str(n)` / `"{n:d}"`). -/
def decChars (n : Nat) : List Char :=
  if n = 0 then ['0'] else (decDigitsAux (n + 1) n).reverse

/-- Embedding of Python's zero-padded format `f"{n:0wd}"`: the decimal
rendering of `n`, left-padded with zeros to a minimum width `w`. -/
def pyFmt (w : Nat) (n : Nat) : List Char :=
  List.replicate (w - (decChars n).length) '0' ++ decChars n

/-- Fixed-width decimal rendering: exactly `w` digit characters, most
significant first (`fixedChars w n` is the last `w` decimal digits of `n`). -/
def fixedChars : Nat → Nat → List Char
  | 0, _ => []
  | w + 1, n => fixedChars w (n / 10) ++ [Char.ofNat (48 + n % 10)]

theorem decDigitsAux_fuel (f g n : Nat) (hf : n ≤ f) (hg : n ≤ g) :
    decDigitsAux f n = decDigitsAux g n := by
  induction n using Nat.strong_induction_on generalizing f g with
  | _ n ih =>
    match f, g with
    | 0, 0 => rfl
    | 0, g + 1 =>
      interval_cases n
      simp [decDigitsAux]
    | f + 1, 0 =>
      interval_cases n
      simp [decDigitsAux]
    | f + 1, g + 1 =>
      by_cases h0 : n = 0
      · simp [decDigitsAux, h0]
      · simp only [decDigitsAux, h0, if_false]
        have hdiv : n / 10 < n := Nat.div_lt_self (Nat.pos_of_ne_zero h0) (by omega)
        rw [ih (n / 10) hdiv f g (by omega) (by omega)]

theorem decChars_lt10 (n : Nat) (h : n < 10) :
    decChars n = [Char.ofNat (48 + n)] := by
  by_cases h0 : n = 0
  · subst h0; rfl
  · have h1 : 1 ≤ n := Nat.pos_of_ne_zero h0
    simp only [decChars, h0, if_false]
    have : decDigitsAux (n + 1) n =
        Char.ofNat (48 + n % 10) :: decDigitsAux n (n / 10) := by
      simp [decDigitsAux, h0]
    rw [this]
    have hdiv : n / 10 = 0 := Nat.div_eq_of_lt h
    rw [hdiv]
    have : decDigitsAux n 0 = [] := by
      match n, h1 with
      | m + 1, _ => simp [decDigitsAux]
    rw [this]
    have : n % 10 = n := Nat.mod_eq_of_lt h
    rw [this]
    rfl

theorem decChars_ge10 (n : Nat) (h : 10 ≤ n) :
    decChars n = decChars (n / 10) ++ [Char.ofNat (48 + n % 10)] := by
  have h0 : n ≠ 0 := by omega
  have hq0 : n / 10 ≠ 0 := by omega
  simp only [decChars, h0, hq0, if_false]
  have step : decDigitsAux (n + 1) n =
      Char.ofNat (48 + n % 10) :: decDigitsAux n (n / 10) := by
    simp [decDigitsAux, h0]
  rw [step, decDigitsAux_fuel n (n / 10 + 1) (n / 10) (by omega) (by omega)]
  simp

theorem div10_lt_pow (w n : Nat) (hn : n < 10 ^ (w + 1)) : n / 10 < 10 ^ w := by
  rw [pow_succ] at hn
  omega

theorem decChars_length_le (w n : Nat) (hw : 0 < w) (hn : n < 10 ^ w) :
    (decChars n).length ≤ w := by
  induction w generalizing n with
  | zero => omega
  | succ w ih =>
    by_cases h10 : n < 10
    · rw [decChars_lt10 n h10]; simp
    · have hge : 10 ≤ n := by omega
      rw [decChars_ge10 n hge]
      have hq : n / 10 < 10 ^ w := div10_lt_pow w n hn
      by_cases hw0 : w = 0
      · subst hw0; simp at hq; omega
      · have hlen := ih (n / 10) (Nat.pos_of_ne_zero hw0) hq
        rw [List.length_append, List.length_singleton]
        omega

theorem fixedChars_zero_eq (w : Nat) : fixedChars w 0 = List.replicate w '0' := by
  induction w with
  | zero => rfl
  | succ w ih =>
    have h48 : Char.ofNat (48 + 0 % 10) = '0' := by decide
    show fixedChars w (0 / 10) ++ [Char.ofNat (48 + 0 % 10)] = _
    rw [Nat.zero_div, ih, h48, ← List.replicate_succ']

theorem pyFmt_eq_fixedChars (w n : Nat) (hw : 0 < w) (hn : n < 10 ^ w) :
    pyFmt w n = fixedChars w n := by
  induction w generalizing n with
  | zero => omega
  | succ w ih =>
    by_cases h10 : n < 10
    · -- rendering has a single digit; the pad supplies the leading zeros
      have hdec : decChars n = [Char.ofNat (48 + n)] := decChars_lt10 n h10
      have hq0 : n / 10 = 0 := Nat.div_eq_of_lt h10
      show pyFmt (w + 1) n = fixedChars w (n / 10) ++ [Char.ofNat (48 + n % 10)]
      rw [hq0, fixedChars_zero_eq, Nat.mod_eq_of_lt h10]
      simp only [pyFmt, hdec, List.length_singleton]
      have harith : w + 1 - 1 = w := by omega
      rw [harith]
    · have hge : 10 ≤ n := by omega
      have hwpos : 0 < w := by
        by_contra hw0
        have : w = 0 := by omega
        subst this
        simp at hn
        omega
      have hq : n / 10 < 10 ^ w := div10_lt_pow w n hn
      have hdec := decChars_ge10 n hge
      have hlen : (decChars (n / 10)).length ≤ w := decChars_length_le w (n / 10) hwpos hq
      show pyFmt (w + 1) n = fixedChars w (n / 10) ++ [Char.ofNat (48 + n % 10)]
      rw [← ih (n / 10) hwpos hq]
      simp only [pyFmt, hdec, List.length_append, List.length_singleton]
      rw [← List.append_assoc]
      have harith : w + 1 - ((decChars (n / 10)).length + 1) = w - (decChars (n / 10)).length := by
        omega
      rw [harith]

/-! ### `downloader.sanitize_filename` -/

/-- The allow-list `safe_chars = f"-_.{string.ascii_letters}{string.digits}/"`
from `downloader.py` (hyphen, underscore, dot, ASCII letters, digits, slash). -/
def safeChars : List Char :=
  "-_.abcdefghijklmnopqrstuvwxyzABCDEFGHIJKLMNOPQRSTUVWXYZ0123456789/".data

/-- Per-character transformation `c if c in safe_chars else '_'`. -/
def sanChar (c : Char) : Char :=
  if safeChars.contains c then c else '_'

/-- Embedding of `downloader.sanitize_filename`. -/
def sanitize_filename (s : String) : String :=
  ⟨s.data.map sanChar⟩

theorem sanChar_idem (c : Char) : sanChar (sanChar c) = sanChar c := by
  unfold sanChar
  by_cases h : safeChars.contains c = true
  · rw [if_pos h, if_pos h]
  · rw [if_neg h]
    decide

theorem sanChar_mem_safe (c : Char) : safeChars.contains (sanChar c) = true := by
  unfold sanChar
  by_cases h : safeChars.contains c = true
  · rw [if_pos h]; exact h
  · rw [if_neg h]; decide

/-- C10: `sanitize_filename` returns a string of the same length, keeps every
allow-listed character (ASCII letters, digits, `-_./`) in place, replaces
every other character by an underscore, and is idempotent. -/
theorem C10_sanitize_filename_pointwise_idem (s : String) :
    (sanitize_filename s).data.length = s.data.length ∧
    (∀ i (h : i < s.data.length),
      (sanitize_filename s).data.get ⟨i, by simpa [sanitize_filename] using h⟩ =
        (if safeChars.contains (s.data.get ⟨i, h⟩) then s.data.get ⟨i, h⟩ else '_')) ∧
    sanitize_filename (sanitize_filename s) = sanitize_filename s := by
  refine ⟨by simp [sanitize_filename], ?_, ?_⟩
  · intro i h
    simp [sanitize_filename, sanChar]
  · unfold sanitize_filename
    apply congrArg String.mk
    show (s.data.map sanChar).map sanChar = s.data.map sanChar
    rw [List.map_map]
    apply List.map_congr_left
    intro c _
    exact sanChar_idem c

/-- Instantiation of C10 at a concrete string containing unsafe characters. -/
theorem C10_witness :
    (sanitize_filename "a b#c.tex").data.length = ("a b#c.tex" : String).data.length ∧
    sanitize_filename (sanitize_filename "a b#c.tex") = sanitize_filename "a b#c.tex" :=
  ⟨(C10_sanitize_filename_pointwise_idem "a b#c.tex").1,
   (C10_sanitize_filename_pointwise_idem "a b#c.tex").2.2⟩

/-! ### `arXiv_handler.get_ID` and `arXiv_handler.format_arxiv_id_for_key` -/

/-- Embedding of `get_ID(month, year, number)`:
`f"{year % 100:02d}{month:02d}.{number:05d}"`. -/
def get_ID (month year number : Nat) : String :=
  ⟨pyFmt 2 (year % 100) ++ pyFmt 2 month ++ ['.'] ++ pyFmt 5 number⟩

/-- Core of `format_arxiv_id_for_key`: the regex `^(\d{2})(\d{2})\.(\d{5})$`
matches exactly the 10-character strings of shape `ddDD.ddddd`; on a match the
result is `f"20{yy}{mm}-{id_num}"`, otherwise the input is returned as-is. -/
def formatKeyChars (l : List Char) : List Char :=
  match l with
  | [a, b, c, d, p, e, f, g, h, i] =>
    if a.isDigit && b.isDigit && c.isDigit && d.isDigit && p == '.'
        && e.isDigit && f.isDigit && g.isDigit && h.isDigit && i.isDigit then
      ['2', '0', a, b, c, d, '-', e, f, g, h, i]
    else l
  | _ => l

/-- Embedding of `arXiv_handler.format_arxiv_id_for_key`. -/
def format_arxiv_id_for_key (arxiv_id : String) : String :=
  ⟨formatKeyChars arxiv_id.data⟩

/-- Embedding of `downloader.format_yymm_id`: `base_id.replace('.', '-')`. -/
def format_yymm_id (base_id : String) : String :=
  ⟨base_id.data.map (fun c => if c = '.' then '-' else c)⟩

theorem digitChar_isDigit (d : Nat) (h : d < 10) :
    (Char.ofNat (48 + d)).isDigit = true := by
  interval_cases d <;> decide

theorem fixedChars_two (n : Nat) :
    fixedChars 2 n = [Char.ofNat (48 + n / 10 % 10), Char.ofNat (48 + n % 10)] := rfl

theorem fixedChars_five (n : Nat) :
    fixedChars 5 n = [Char.ofNat (48 + n / 10000 % 10), Char.ofNat (48 + n / 1000 % 10),
      Char.ofNat (48 + n / 100 % 10), Char.ofNat (48 + n / 10 % 10),
      Char.ofNat (48 + n % 10)] := by
  show fixedChars 4 (n / 10) ++ [Char.ofNat (48 + n % 10)] = _
  show (fixedChars 3 (n / 10 / 10) ++ [Char.ofNat (48 + n / 10 % 10)]) ++ _ = _
  rw [show n / 10 / 10 = n / 100 by omega]
  show (fixedChars 2 (n / 100 / 10) ++ [Char.ofNat (48 + n / 100 % 10)]) ++ _ ++ _ = _
  rw [show n / 100 / 10 = n / 1000 by omega, fixedChars_two,
    show n / 1000 / 10 = n / 10000 by omega]
  rfl

theorem formatKeyChars_digits (a b c d e f g i j : Char)
    (h1 : a.isDigit = true) (h2 : b.isDigit = true) (h3 : c.isDigit = true)
    (h4 : d.isDigit = true) (h5 : e.isDigit = true) (h6 : f.isDigit = true)
    (h7 : g.isDigit = true) (h8 : i.isDigit = true) (h9 : j.isDigit = true) :
    formatKeyChars [a, b, c, d, '.', e, f, g, i, j] =
      ['2', '0', a, b, c, d, '-', e, f, g, i, j] := by
  simp [formatKeyChars, h1, h2, h3, h4, h5, h6, h7, h8, h9]

theorem fixedChars_four_2000s (y : Nat) (h1 : 2000 ≤ y) (h2 : y ≤ 2099) :
    fixedChars 4 y = ['2', '0'] ++ fixedChars 2 (y % 100) := by
  show fixedChars 3 (y / 10) ++ [Char.ofNat (48 + y % 10)] = _
  show (fixedChars 2 (y / 10 / 10) ++ [Char.ofNat (48 + y / 10 % 10)]) ++ _ = _
  rw [show y / 10 / 10 = y / 100 by omega, fixedChars_two, fixedChars_two,
    show y / 100 / 10 % 10 = 2 by omega, show y / 100 % 10 = 0 by omega,
    show y % 100 / 10 % 10 = y / 10 % 10 by omega, show y % 100 % 10 = y % 10 by omega]
  rfl

/-- C9 (amended): for months `1..12`, ordinals `1..99999` and years in the
2000–2099 window that the code's `"20" + yy` reconstruction assumes,
`format_arxiv_id_for_key (get_ID m y n)` equals `f"{y:04d}{m:02d}-{n:05d}"`;
in particular `get_ID 4 2023 7856 = "2304.07856"` with storage key
`"202304-07856"`. -/
theorem C9_get_ID_key_roundtrip (m y n : Nat)
    (hm1 : 1 ≤ m) (hm2 : m ≤ 12) (hy1 : 2000 ≤ y) (hy2 : y ≤ 2099)
    (hn1 : 1 ≤ n) (hn2 : n ≤ 99999) :
    format_arxiv_id_for_key (get_ID m y n) =
      ⟨pyFmt 4 y ++ pyFmt 2 m ++ ['-'] ++ pyFmt 5 n⟩ ∧
    get_ID 4 2023 7856 = "2304.07856" ∧
    format_arxiv_id_for_key "2304.07856" = "202304-07856" := by
  refine ⟨?_, by decide, by decide⟩
  have e100 : (10 : Nat) ^ 2 = 100 := by norm_num
  have e10000 : (10 : Nat) ^ 4 = 10000 := by norm_num
  have e100000 : (10 : Nat) ^ 5 = 100000 := by norm_num
  have hy100 : y % 100 < 10 ^ 2 := by rw [e100]; omega
  have hmlt : m < 10 ^ 2 := by rw [e100]; omega
  have hnlt : n < 10 ^ 5 := by rw [e100000]; omega
  have hylt : y < 10 ^ 4 := by rw [e10000]; omega
  have hID : get_ID m y n =
      ⟨fixedChars 2 (y % 100) ++ fixedChars 2 m ++ ['.'] ++ fixedChars 5 n⟩ := by
    unfold get_ID
    rw [pyFmt_eq_fixedChars 2 (y % 100) (by norm_num) hy100,
      pyFmt_eq_fixedChars 2 m (by norm_num) hmlt,
      pyFmt_eq_fixedChars 5 n (by norm_num) hnlt]
  have hRHS : (⟨pyFmt 4 y ++ pyFmt 2 m ++ ['-'] ++ pyFmt 5 n⟩ : String) =
      ⟨(['2', '0'] ++ fixedChars 2 (y % 100)) ++ fixedChars 2 m ++ ['-'] ++ fixedChars 5 n⟩ := by
    rw [pyFmt_eq_fixedChars 4 y (by norm_num) hylt,
      pyFmt_eq_fixedChars 2 m (by norm_num) hmlt,
      pyFmt_eq_fixedChars 5 n (by norm_num) hnlt,
      fixedChars_four_2000s y hy1 hy2]
  rw [hID, hRHS]
  unfold format_arxiv_id_for_key
  apply congrArg String.mk
  show formatKeyChars (fixedChars 2 (y % 100) ++ fixedChars 2 m ++ ['.'] ++ fixedChars 5 n) = _
  rw [fixedChars_two (y % 100), fixedChars_two m, fixedChars_five n]
  have d10 : ∀ k : Nat, k % 10 < 10 := fun k => Nat.mod_lt k (by norm_num)
  show formatKeyChars [Char.ofNat (48 + y % 100 / 10 % 10), Char.ofNat (48 + y % 100 % 10),
      Char.ofNat (48 + m / 10 % 10), Char.ofNat (48 + m % 10), '.',
      Char.ofNat (48 + n / 10000 % 10), Char.ofNat (48 + n / 1000 % 10),
      Char.ofNat (48 + n / 100 % 10), Char.ofNat (48 + n / 10 % 10),
      Char.ofNat (48 + n % 10)] = _
  rw [formatKeyChars_digits _ _ _ _ _ _ _ _ _
    (digitChar_isDigit _ (d10 _)) (digitChar_isDigit _ (d10 _))
    (digitChar_isDigit _ (d10 _)) (digitChar_isDigit _ (d10 _))
    (digitChar_isDigit _ (d10 _)) (digitChar_isDigit _ (d10 _))
    (digitChar_isDigit _ (d10 _)) (digitChar_isDigit _ (d10 _))
    (digitChar_isDigit _ (d10 _))]
  rfl

/-- Instantiation of C9 at `(m, y, n) = (4, 2023, 7856)`. -/
theorem C9_witness :
    format_arxiv_id_for_key (get_ID 4 2023 7856) =
      ⟨pyFmt 4 2023 ++ pyFmt 2 4 ++ ['-'] ++ pyFmt 5 7856⟩ :=
  (C9_get_ID_key_roundtrip 4 2023 7856 (by decide) (by decide) (by decide)
    (by decide) (by decide) (by decide)).1

/-- C9 counterexample: for year 1999 the code's `"20" + yy` reconstruction
produces `"209912-00123"` instead of `f"{1999:04d}{12:02d}-{123:05d}" =
"199912-00123"`, so the round-trip claim fails outside 2000–2099. -/
theorem C9_counterexample :
    get_ID 12 1999 123 = "9912.00123" ∧
    format_arxiv_id_for_key (get_ID 12 1999 123) = "209912-00123" ∧
    (⟨pyFmt 4 1999 ++ pyFmt 2 12 ++ ['-'] ++ pyFmt 5 123⟩ : String) = "199912-00123" ∧
    format_arxiv_id_for_key (get_ID 12 1999 123) ≠
      ⟨pyFmt 4 1999 ++ pyFmt 2 12 ++ ['-'] ++ pyFmt 5 123⟩ := by
  refine ⟨by decide, by decide, by decide, ?_⟩
  intro h
  have h1 : format_arxiv_id_for_key (get_ID 12 1999 123) = "209912-00123" := by decide
  have h2 : (⟨pyFmt 4 1999 ++ pyFmt 2 12 ++ ['-'] ++ pyFmt 5 123⟩ : String) =
      "199912-00123" := by decide
  rw [h1, h2] at h
  exact absurd h (by decide)

/-! ### `arXiv_handler.find_first_id` / `find_last_id`

`id_exists` performs a network lookup; it is an external oracle here,
modelled as `ex : String → Bool` applied to `get_ID month year k`.
Both searches are loops whose iteration count is bounded: the exponential
phase doubles `high` starting from 1 and stops once `2 * high > 99999`
(at most 17 doublings, so fuel 18 can never run out), and the binary phase
strictly shrinks `high - low ≤ 99999` each iteration (fuel 99999 can never
run out).  Fuel exhaustion is therefore unreachable; it is mapped to `none`
(exponential phase) resp. the loop-exit value (binary phase). -/

def expSearchFirst (p : Nat → Bool) : Nat → Nat → Option Nat
  | 0, _ => none
  | fuel + 1, high =>
    if p high then some high
    else if 2 * high > 99999 then none
    else expSearchFirst p fuel (2 * high)

def binSearchFirst (p : Nat → Bool) : Nat → Nat → Nat → Nat
  | 0, _, high => high
  | fuel + 1, low, high =>
    if low + 1 < high then
      if p ((low + high) / 2) then binSearchFirst p fuel low ((low + high) / 2)
      else binSearchFirst p fuel ((low + high) / 2) high
    else high

/-- Embedding of `arXiv_handler.find_first_id(year, month)`; `none` is the
Python `None` ("no valid papers this month"). -/
def find_first_id (ex : String → Bool) (year month : Nat) : Option Nat :=
  match expSearchFirst (fun k => ex (get_ID month year k)) 18 1 with
  | none => none
  | some high => some (binSearchFirst (fun k => ex (get_ID month year k)) 99999 1 high)

inductive ExpLastResult where
  | early99999 : ExpLastResult
  | stopped (high : Nat) : ExpLastResult
  deriving DecidableEq

def expSearchLast (p : Nat → Bool) : Nat → Nat → Option ExpLastResult
  | 0, _ => none
  | fuel + 1, high =>
    if p high then
      if 2 * high > 99999 then some .early99999
      else expSearchLast p fuel (2 * high)
    else some (.stopped high)

def binSearchLast (p : Nat → Bool) : Nat → Nat → Nat → Nat
  | 0, low, _ => low
  | fuel + 1, low, high =>
    if low + 1 < high then
      if p ((low + high) / 2) then binSearchLast p fuel ((low + high) / 2) high
      else binSearchLast p fuel low ((low + high) / 2)
    else low

/-- Embedding of `arXiv_handler.find_last_id(year, month)`.  The Python
function always returns an integer; `none` only covers the unreachable
fuel-exhaustion case. -/
def find_last_id (ex : String → Bool) (year month : Nat) : Option Nat :=
  match expSearchLast (fun k => ex (get_ID month year k)) 18 1 with
  | some .early99999 => some 99999
  | some (.stopped high) =>
    some (binSearchLast (fun k => ex (get_ID month year k)) 99999 (high / 2) high)
  | none => none

theorem binSearchLast_ge (p : Nat → Bool) (fuel : Nat) :
    ∀ low high, low ≤ binSearchLast p fuel low high := by
  induction fuel with
  | zero => intro low high; exact Nat.le_refl low
  | succ fuel ih =>
    intro low high
    show (if low + 1 < high then _ else low) ≥ low
    split
    · rename_i hlt
      split
      · calc low ≤ (low + high) / 2 := by omega
          _ ≤ binSearchLast p fuel ((low + high) / 2) high := ih _ _
      · exact ih _ _
    · exact Nat.le_refl low

theorem expSearchLast_stopped (p : Nat → Bool) (fuel : Nat) :
    ∀ h0 h, expSearchLast p fuel h0 = some (.stopped h) → p h = false ∧ h0 ≤ h := by
  induction fuel with
  | zero => intro h0 h hc; exact absurd hc (by simp [expSearchLast])
  | succ fuel ih =>
    intro h0 h hc
    unfold expSearchLast at hc
    by_cases hp : p h0 = true
    · rw [if_pos hp] at hc
      by_cases hb : 2 * h0 > 99999
      · rw [if_pos hb] at hc; exact absurd hc (by simp)
      · rw [if_neg hb] at hc
        obtain ⟨h1, h2⟩ := ih (2 * h0) h hc
        exact ⟨h1, by omega⟩
    · rw [if_neg hp] at hc
      simp only [Option.some.injEq, ExpLastResult.stopped.injEq] at hc
      subst hc
      exact ⟨Bool.not_eq_true _ ▸ hp, Nat.le_refl h0⟩

theorem expSearchLast_ne_none (p : Nat → Bool) (fuel : Nat) :
    ∀ high, 1 ≤ high → high ≤ 99999 → 99999 < high * 2 ^ fuel →
      expSearchLast p fuel high ≠ none := by
  induction fuel with
  | zero => intro high h1 h2 h3; simp at h3; omega
  | succ fuel ih =>
    intro high h1 h2 h3
    unfold expSearchLast
    by_cases hp : p high = true
    · rw [if_pos hp]
      by_cases hb : 2 * high > 99999
      · rw [if_pos hb]; simp
      · rw [if_neg hb]
        refine ih (2 * high) (by omega) (by omega) ?_
        have : high * 2 ^ (fuel + 1) = 2 * high * 2 ^ fuel := by ring
        omega
    · rw [if_neg hp]; simp

theorem expSearchFirst_none_of_allFalse (p : Nat → Bool) (fuel : Nat)
    (hp : ∀ k, 1 ≤ k → k ≤ 99999 → p k = false) :
    ∀ high, 1 ≤ high → high ≤ 99999 → expSearchFirst p fuel high = none := by
  induction fuel with
  | zero => intro high _ _; rfl
  | succ fuel ih =>
    intro high h1 h2
    unfold expSearchFirst
    rw [hp high h1 h2]
    simp only [Bool.false_eq_true, if_false]
    by_cases hb : 2 * high > 99999
    · rw [if_pos hb]
    · rw [if_neg hb]
      exact ih (2 * high) (by omega) (by omega)

/-- C8 (amended): `find_first_id ≤ find_last_id` holds when the existing
ordinals of the month form a contiguous range starting at ordinal 1
(`[1, b]`, as the code's exponential searches assume); for any month whose
range form is `[1, b]` the first search returns 1 and the last search
returns an ordinal ≥ 1.  When no ordinal exists, `find_first_id` returns
the `None` sentinel and `find_last_id` returns 0, which is not a valid
ordinal (valid ordinals are 1..99999). -/
theorem C8_first_le_last_from_one :
    (∀ (ex : String → Bool) (year month b : Nat), 1 ≤ b → b ≤ 99999 →
      (∀ k, 1 ≤ k → k ≤ 99999 → (ex (get_ID month year k) = true ↔ k ≤ b)) →
      ∃ f l, find_first_id ex year month = some f ∧
        find_last_id ex year month = some l ∧ f ≤ l) ∧
    (∀ (ex : String → Bool) (year month : Nat),
      (∀ k, 1 ≤ k → k ≤ 99999 → ex (get_ID month year k) = false) →
      find_first_id ex year month = none ∧ find_last_id ex year month = some 0) := by
  constructor
  · intro ex year month b hb1 hb2 hex
    have hp1 : ex (get_ID month year 1) = true := (hex 1 (by omega) (by omega)).mpr hb1
    have hfirst : find_first_id ex year month = some 1 := by
      -- the exponential probe succeeds immediately at 1,
      -- and the binary loop body never runs (low = high = 1)
      unfold find_first_id
      rw [show expSearchFirst (fun k => ex (get_ID month year k)) 18 1 = some 1 by
        unfold expSearchFirst; rw [if_pos hp1]]
      rfl
    have hlast : ∃ l, find_last_id ex year month = some l ∧ 1 ≤ l := by
      unfold find_last_id
      have hne := expSearchLast_ne_none (fun k => ex (get_ID month year k)) 18 1
        (by omega) (by omega) (by norm_num)
      cases hres : expSearchLast (fun k => ex (get_ID month year k)) 18 1 with
      | none => exact absurd hres hne
      | some r =>
        cases r with
        | early99999 =>
          refine ⟨99999, rfl, by omega⟩
        | stopped high =>
          obtain ⟨hph, hge⟩ := expSearchLast_stopped _ 18 1 high hres
          have hhigh2 : 2 ≤ high := by
            by_contra hlt
            have h1' : high = 1 := by omega
            subst h1'
            have hcontr : ex (get_ID month year 1) = false := hph
            rw [hp1] at hcontr
            exact absurd hcontr (by simp)
          refine ⟨_, rfl, ?_⟩
          calc 1 ≤ high / 2 := by omega
            _ ≤ binSearchLast (fun k => ex (get_ID month year k)) 99999 (high / 2) high :=
              binSearchLast_ge _ _ _ _
    obtain ⟨l, hl, hl1⟩ := hlast
    exact ⟨1, l, hfirst, hl, hl1⟩
  · intro ex year month hex
    constructor
    · unfold find_first_id
      rw [expSearchFirst_none_of_allFalse _ 18 hex 1 (by omega) (by omega)]
    · unfold find_last_id
      have h1 : expSearchLast (fun k => ex (get_ID month year k)) 18 1 =
          some (.stopped 1) := by
        unfold expSearchLast
        rw [hex 1 (by omega) (by omega)]
        simp
      rw [h1]
      rfl

theorem fixedChars_length (w n : Nat) : (fixedChars w n).length = w := by
  induction w generalizing n with
  | zero => rfl
  | succ w ih =>
    show (fixedChars w (n / 10) ++ [_]).length = w + 1
    rw [List.length_append, ih, List.length_singleton]

theorem get_ID_length (month year n : Nat) (hm : month < 100) (hn : n < 100000) :
    (get_ID month year n).data.length = 10 := by
  have e100 : (10 : Nat) ^ 2 = 100 := by norm_num
  have e100000 : (10 : Nat) ^ 5 = 100000 := by norm_num
  have e1 : pyFmt 2 (year % 100) = fixedChars 2 (year % 100) :=
    pyFmt_eq_fixedChars 2 _ (by norm_num) (by rw [e100]; omega)
  have e2 : pyFmt 2 month = fixedChars 2 month :=
    pyFmt_eq_fixedChars 2 _ (by norm_num) (by rw [e100]; omega)
  have e3 : pyFmt 5 n = fixedChars 5 n :=
    pyFmt_eq_fixedChars 5 _ (by norm_num) (by rw [e100000]; omega)
  show (pyFmt 2 (year % 100) ++ pyFmt 2 month ++ ['.'] ++ pyFmt 5 n).length = 10
  rw [e1, e2, e3]
  simp [fixedChars_length]

/-- Instantiation of C8 with limits: a full month `[1, 99999]` (an existence
oracle that accepts every well-formed probe) and an empty month. -/
theorem C8_witness :
    (∃ f l, find_first_id (fun s => decide (s.data.length = 10)) 2023 4 = some f ∧
      find_last_id (fun s => decide (s.data.length = 10)) 2023 4 = some l ∧ f ≤ l) ∧
    (find_first_id (fun _ => false) 2023 4 = none ∧
     find_last_id (fun _ => false) 2023 4 = some 0) := by
  constructor
  · refine C8_first_le_last_from_one.1 _ 2023 4 99999 (by omega) (by omega) ?_
    intro k hk1 hk2
    rw [get_ID_length 4 2023 k (by omega) (by omega)]
    simp
    omega
  · exact C8_first_le_last_from_one.2 (fun _ => false) 2023 4 (fun _ _ _ => rfl)

/-- C8 counterexample: an existence oracle whose existing ordinals are the
non-empty contiguous range `[4, 10]` (within `[1, 99999]`).  Because the
range does not start at 1, `find_last_id`'s exponential phase stops at its
very first probe and its binary search degenerates to 0, while
`find_first_id` correctly returns 4 — so `find_first ≤ find_last` fails. -/
theorem C8_counterexample :
    find_first_id (fun s => ((List.range' 4 7).map (get_ID 4 2023)).contains s) 2023 4 =
      some 4 ∧
    find_last_id (fun s => ((List.range' 4 7).map (get_ID 4 2023)).contains s) 2023 4 =
      some 0 ∧
    ¬(4 : Nat) ≤ 0 := by
  refine ⟨by decide, by decide, by decide⟩

/-! ### `reference_extractor.convert_to_references_dict` -/

/-- `externalIds` of a Semantic Scholar reference: the code reads
`externalIds.get("ArXiv", "")` and `externalIds.get("DOI", "")`, so missing
entries are the empty string. -/
structure ExternalIds where
  arxiv : String
  doi : String
  deriving DecidableEq

/-- One raw reference from the Semantic Scholar API (`None`/missing fields
are the empty string or `none`, mirroring the `.get(...)` defaults). -/
structure SemanticRef where
  externalIds : Option ExternalIds
  title : String
  authors : List String
  publicationDate : String
  year : Option Int
  venue : String
  deriving DecidableEq

/-- One stored reference entry (the value side of `references.json`). -/
structure RefMeta where
  title : String
  authors : List String
  submission_date : String
  revised_dates : List String
  doi : Option String
  arxiv_id : Option String
  venue : Option String
  year : Option Int
  deriving DecidableEq

/-- Python `\w` on ASCII: letters, digits, underscore. -/
def wordChar (c : Char) : Bool := c.isAlphanum || c == '_'

/-- Key for DOI-only references: `f"doi:{doi.replace('/', '_')}"`
(dead code in `convert_to_references_dict`, kept for fidelity). -/
def doiKey (doi : String) : String :=
  "doi:" ++ ⟨doi.data.map (fun c => if c = '/' then '_' else c)⟩

/-- Key generated for references without arXiv id or DOI
(dead code in `convert_to_references_dict`, kept for fidelity). -/
def genRefKey (title : String) (counter : Nat) : String :=
  if title != "" then
    let ws := (title.split Char.isWhitespace).filter (fun w => w != "")
    let first_word : String :=
      ⟨(match ws with | [] => "unknown" | w :: _ => w).data.filter wordChar⟩
    "ref_" ++ ⟨first_word.data.take 20⟩ ++ "_" ++ ⟨decChars counter⟩
  else
    "ref_unknown_" ++ ⟨decChars counter⟩

/-- Python `f"{year}-01-01"` for an `int` year. -/
def intStr (y : Int) : String :=
  if y < 0 then "-" ++ ⟨decChars y.natAbs⟩ else ⟨decChars y.toNat⟩

/-- The metadata dictionary built for one kept reference. -/
def buildRefMeta (ref : SemanticRef) (arxiv_id doi : String) : RefMeta :=
  let authors := ref.authors.filter (fun a => a != "")
  let publication_date :=
    if ref.publicationDate == "" && (match ref.year with | some y => y != 0 | none => false) then
      (match ref.year with | some y => intStr y ++ "-01-01" | none => "")
    else ref.publicationDate
  { title := ref.title
    authors := authors
    submission_date := if publication_date != "" then publication_date else ""
    revised_dates := []
    doi := if doi != "" then some doi else none
    arxiv_id := if arxiv_id != "" then some arxiv_id else none
    venue := if ref.venue != "" then some ref.venue else none
    year := match ref.year with | some y => if y != 0 then some y else none | none => none }

/-- Python dict assignment `result[key] = metadata`: overwrite in place if
the key is present, append otherwise. -/
def upsert (l : List (String × RefMeta)) (k : String) (v : RefMeta) : List (String × RefMeta) :=
  if l.any (fun p => p.1 == k) then l.map (fun p => if p.1 == k then (k, v) else p)
  else l ++ [(k, v)]

/-- Loop body of `convert_to_references_dict` (state: result dict and
`non_arxiv_counter`). -/
def convertStep (acc : List (String × RefMeta) × Nat) (ref? : Option SemanticRef) :
    List (String × RefMeta) × Nat :=
  match ref? with
  | none => acc
  | some ref =>
    let ext := ref.externalIds.getD ⟨"", ""⟩
    let arxiv_id := ext.arxiv
    let doi := ext.doi
    if arxiv_id == "" then acc
    else
      let kc : String × Nat :=
        if arxiv_id != "" then (format_yymm_id arxiv_id, acc.2)
        else if doi != "" then (doiKey doi, acc.2)
        else (genRefKey ref.title acc.2, acc.2 + 1)
      (upsert acc.1 kc.1 (buildRefMeta ref arxiv_id doi), kc.2)

/-- Embedding of `reference_extractor.convert_to_references_dict`. -/
def convert_to_references_dict (references : List (Option SemanticRef)) :
    List (String × RefMeta) :=
  (references.foldl convertStep ([], 1)).1

/-- The storage-key shape the codebase itself uses and checks
(`check_missing.PATTERN = ^(\d{4})-(\d{5})$`, e.g. `2303-07856`). -/
def storageKeyYYMM (s : String) : Bool :=
  match s.data with
  | [a, b, c, d, p, e, f, g, i, j] =>
    a.isDigit && b.isDigit && c.isDigit && d.isDigit && p == '-'
      && e.isDigit && f.isDigit && g.isDigit && i.isDigit && j.isDigit
  | _ => false

/-- Modelled from the spec: the storage-key format claimed in §3/§6,
`YYYYMM-NNNNN` — 4-digit year, 2-digit month, dash, 5-digit zero-padded
ordinal (12 characters). -/
def specStorageKeyFormat (s : String) : Bool :=
  match s.data with
  | [y1, y2, y3, y4, m1, m2, p, a, b, c, d, e] =>
    y1.isDigit && y2.isDigit && y3.isDigit && y4.isDigit && m1.isDigit && m2.isDigit
      && p == '-' && a.isDigit && b.isDigit && c.isDigit && d.isDigit && e.isDigit
  | _ => false

/-- New-style arXiv identifier `YYMM.NNNNN` (the shape of every id produced
by `get_ID`). -/
def isNewStyleId (s : String) : Bool :=
  match s.data with
  | [a, b, c, d, p, e, f, g, i, j] =>
    a.isDigit && b.isDigit && c.isDigit && d.isDigit && p == '.'
      && e.isDigit && f.isDigit && g.isDigit && i.isDigit && j.isDigit
  | _ => false

theorem isDigit_ne_dot (c : Char) (h : c.isDigit = true) : c ≠ '.' := by
  intro hc
  subst hc
  exact absurd h (by decide)

theorem format_yymm_id_newStyle (s : String) (h : isNewStyleId s = true) :
    storageKeyYYMM (format_yymm_id s) = true := by
  obtain ⟨l⟩ := s
  unfold isNewStyleId at h
  match l, h with
  | [a, b, c, d, p, e, f, g, i, j], h =>
    replace h : (a.isDigit && b.isDigit && c.isDigit && d.isDigit && p == '.'
        && e.isDigit && f.isDigit && g.isDigit && i.isDigit && j.isDigit) = true := h
    simp only [Bool.and_eq_true, beq_iff_eq] at h
    obtain ⟨⟨⟨⟨⟨⟨⟨⟨⟨ha, hb⟩, hc⟩, hd⟩, hp⟩, he⟩, hf⟩, hg⟩, hi⟩, hj⟩ := h
    subst hp
    have na := isDigit_ne_dot a ha
    have nb := isDigit_ne_dot b hb
    have nc := isDigit_ne_dot c hc
    have nd := isDigit_ne_dot d hd
    have ne1 := isDigit_ne_dot e he
    have nf := isDigit_ne_dot f hf
    have ng := isDigit_ne_dot g hg
    have ni := isDigit_ne_dot i hi
    have nj := isDigit_ne_dot j hj
    simp [storageKeyYYMM, format_yymm_id, na, nb, nc, nd, ne1, nf, ng, ni, nj,
      ha, hb, hc, hd, he, hf, hg, hi, hj]
  | [], h => exact Bool.noConfusion h
  | [x1], h => exact Bool.noConfusion h
  | [x1, x2], h => exact Bool.noConfusion h
  | [x1, x2, x3], h => exact Bool.noConfusion h
  | [x1, x2, x3, x4], h => exact Bool.noConfusion h
  | [x1, x2, x3, x4, x5], h => exact Bool.noConfusion h
  | [x1, x2, x3, x4, x5, x6], h => exact Bool.noConfusion h
  | [x1, x2, x3, x4, x5, x6, x7], h => exact Bool.noConfusion h
  | [x1, x2, x3, x4, x5, x6, x7, x8], h => exact Bool.noConfusion h
  | [x1, x2, x3, x4, x5, x6, x7, x8, x9], h => exact Bool.noConfusion h
  | x1 :: x2 :: x3 :: x4 :: x5 :: x6 :: x7 :: x8 :: x9 :: x10 :: x11 :: rest, h =>
    exact Bool.noConfusion h

theorem upsert_mem (l : List (String × RefMeta)) (k : String) (v : RefMeta)
    (p : String × RefMeta) (hp : p ∈ upsert l k v) : p ∈ l ∨ p = (k, v) := by
  unfold upsert at hp
  by_cases hc : l.any (fun q => q.1 == k) = true
  · rw [if_pos hc] at hp
    obtain ⟨q, hq, hfq⟩ := List.mem_map.mp hp
    by_cases hk : q.1 == k
    · rw [if_pos hk] at hfq
      exact Or.inr hfq.symm
    · rw [if_neg hk] at hfq
      exact Or.inl (hfq ▸ hq)
  · rw [if_neg hc] at hp
    rcases List.mem_append.mp hp with h | h
    · exact Or.inl h
    · exact Or.inr (List.mem_singleton.mp h)

theorem convert_fold_mem (refs : List (Option SemanticRef)) :
    ∀ (acc : List (String × RefMeta) × Nat) (p : String × RefMeta),
      p ∈ (refs.foldl convertStep acc).1 →
      p ∈ acc.1 ∨ ∃ x e, some x ∈ refs ∧ x.externalIds = some e ∧ e.arxiv ≠ "" ∧
        p.1 = format_yymm_id e.arxiv := by
  induction refs with
  | nil => intro acc p hp; exact Or.inl hp
  | cons r rest ih =>
    intro acc p hp
    rw [List.foldl_cons] at hp
    rcases ih (convertStep acc r) p hp with hmem | ⟨x, e, hx, he, hne, hk⟩
    · match r with
      | none => exact Or.inl hmem
      | some x =>
        simp only [convertStep] at hmem
        cases hext : x.externalIds with
        | none =>
          rw [hext] at hmem
          exact Or.inl hmem
        | some e =>
          rw [hext] at hmem
          by_cases harx : e.arxiv = ""
          · simp only [Option.getD_some, harx] at hmem
            exact Or.inl hmem
          · have hbeq : (e.arxiv == "") = false := beq_eq_false_iff_ne.mpr harx
            have hbne : (e.arxiv != "") = true := by simp [bne, hbeq]
            simp only [Option.getD_some, hbeq, Bool.false_eq_true, if_false, hbne,
              Bool.true_eq_false, if_true] at hmem
            rcases upsert_mem _ _ _ _ hmem with hmem' | hpk
            · exact Or.inl hmem'
            · refine Or.inr ⟨x, e, List.mem_cons_self _ _, hext, harx, ?_⟩
              rw [hpk]
    · exact Or.inr ⟨x, e, List.mem_cons_of_mem r hx, he, hne, hk⟩

/-- C1 (amended): references lacking an `externalIds.ArXiv` entry are
skipped, so every key of the output mapping comes from some reference's
non-empty ArXiv id via `format_yymm_id`; when the ArXiv ids are new-style
(`YYMM.NNNNN`), every key matches the storage-key format the codebase
actually uses, `\d{4}-\d{5}` (2-digit year + 2-digit month, dash, 5-digit
ordinal); and the reference with ArXiv id `"2304.07856"` appears under key
`"2304-07856"`. -/
theorem C1_reference_key_format (refs : List (Option SemanticRef))
    (h : ∀ x e, some x ∈ refs → x.externalIds = some e → e.arxiv ≠ "" →
      isNewStyleId e.arxiv = true) :
    (∀ p ∈ convert_to_references_dict refs,
      storageKeyYYMM p.1 = true ∧
      ∃ x e, some x ∈ refs ∧ x.externalIds = some e ∧ e.arxiv ≠ "" ∧
        p.1 = format_yymm_id e.arxiv) ∧
    format_yymm_id "2304.07856" = "2304-07856" := by
  constructor
  · intro p hp
    rcases convert_fold_mem refs ([], 1) p hp with habs | ⟨x, e, hx, he, hne, hk⟩
    · exact absurd habs (List.not_mem_nil p)
    · exact ⟨hk ▸ format_yymm_id_newStyle _ (h x e hx he hne), x, e, hx, he, hne, hk⟩
  · decide

/-- A raw reference carrying ArXiv id `"2304.07856"` (and nothing else). -/
def c1ExampleRef : Option SemanticRef :=
  some { externalIds := some ⟨"2304.07856", ""⟩, title := "", authors := [],
         publicationDate := "", year := none, venue := "" }

/-- C1 counterexample: the reference with ArXiv id `"2304.07856"` is stored
under key `"2304-07856"` (via `format_yymm_id`), not under the claimed key
`"202304-07856"`, and the produced key does not match the claimed
4-digit-year storage-key format `YYYYMM-NNNNN`. -/
theorem C1_counterexample :
    (convert_to_references_dict [c1ExampleRef]).map Prod.fst = ["2304-07856"] ∧
    ((convert_to_references_dict [c1ExampleRef]).map Prod.fst).contains "202304-07856"
      = false ∧
    specStorageKeyFormat "2304-07856" = false := by
  refine ⟨by decide, by decide, by decide⟩

/-- Instantiation of C1 on the one-element reference list. -/
theorem C1_witness :
    storageKeyYYMM "2304-07856" = true ∧ format_yymm_id "2304.07856" = "2304-07856" := by
  have hdis : ∀ x e, some x ∈ [c1ExampleRef] → x.externalIds = some e → e.arxiv ≠ "" →
      isNewStyleId e.arxiv = true := by
    intro x e hx he hne
    have hx2 : some x = c1ExampleRef := List.mem_singleton.mp hx
    unfold c1ExampleRef at hx2
    injection hx2 with hx3
    subst hx3
    injection he with he2
    rw [← he2]
    decide
  have happ := C1_reference_key_format [c1ExampleRef] hdis
  refine ⟨?_, happ.2⟩
  have hp : ("2304-07856",
      ({ title := "", authors := [], submission_date := "", revised_dates := [],
         doi := none, arxiv_id := some "2304.07856", venue := none,
         year := none } : RefMeta)) ∈ convert_to_references_dict [c1ExampleRef] := by
    decide
  exact (happ.1 _ hp).1

/-! ### `downloader.safe_extract_tar`

The tar reader is an external collaborator; a member is modelled by its
name and link flags, and the per-member `tar.extract` call by a success
oracle `extractOk` (its failures — filesystem errors, malformed entries —
are exactly what the `except (FileNotFoundError, OSError, ExtractError)`
handler catches and skips).  The extracted relative paths are collected;
the on-disk target of a member is `os.path.join(extract_to, member.name)`,
modelled by `joinPath` below with POSIX semantics (an absolute second
operand discards the base). -/

structure TarMember where
  name : String
  isSym : Bool
  isLnk : Bool
  deriving DecidableEq

/-- Python `".." in name` (any occurrence of two consecutive dots). -/
def hasDotDot : List Char → Bool
  | [] => false
  | [_] => false
  | a :: b :: rest => (a == '.' && b == '.') || hasDotDot (b :: rest)

/-- Python `name.startswith("/")`. -/
def startsWithSlash (s : String) : Bool :=
  match s.data with
  | [] => false
  | c :: _ => c == '/'

/-- The skip condition of `safe_extract_tar`:
`member.islnk() or member.issym() or member.name.startswith("/") or ".." in member.name`. -/
def memberRejected (m : TarMember) : Bool :=
  m.isLnk || m.isSym || startsWithSlash m.name || hasDotDot m.name.data

def safeExtractGo (extractOk : Nat → Bool) : Nat → List TarMember → List String
  | _, [] => []
  | i, m :: rest =>
    if memberRejected m then safeExtractGo extractOk (i + 1) rest
    else (if extractOk i then [sanitize_filename m.name] else [])
      ++ safeExtractGo extractOk (i + 1) rest

/-- Embedding of `downloader.safe_extract_tar`: the list of relative paths
written under the destination, in member order. -/
def safe_extract_tar (extractOk : Nat → Bool) (members : List TarMember) : List String :=
  safeExtractGo extractOk 0 members

/-- Split a path into `/`-separated segments. -/
def splitSlashAux : List Char → List Char → List (List Char)
  | [], cur => [cur.reverse]
  | c :: rest, cur =>
    if c = '/' then cur.reverse :: splitSlashAux rest []
    else splitSlashAux rest (c :: cur)

def splitSlash (s : String) : List String :=
  (splitSlashAux s.data []).map (fun l => ⟨l⟩)

/-- POSIX path resolution over segments: empty and `.` segments are
ignored, `..` pops the last resolved segment. -/
def resolvePath (acc : List String) : List String → List String
  | [] => acc
  | seg :: rest =>
    if seg = ".." then resolvePath acc.dropLast rest
    else if seg = "" ∨ seg = "." then resolvePath acc rest
    else resolvePath (acc ++ [seg]) rest

/-- `os.path.join(base, name)` followed by resolution: an absolute `name`
discards the base. -/
def joinPath (baseSegs : List String) (name : String) : List String :=
  if startsWithSlash name then resolvePath [] (splitSlash name)
  else resolvePath baseSegs (splitSlash name)

theorem hasDotDot_cons_tail (x : Char) (t : List Char) (h : hasDotDot (x :: t) = false) :
    hasDotDot t = false := by
  cases t with
  | nil => rfl
  | cons y t' =>
    rw [hasDotDot, Bool.or_eq_false_iff] at h
    exact h.2

theorem hasDotDot_append_left (a b : List Char) (h : hasDotDot (a ++ b) = false) :
    hasDotDot a = false := by
  induction a with
  | nil => rfl
  | cons x a ih =>
    cases a with
    | nil => rfl
    | cons y a' =>
      simp only [List.cons_append] at h
      rw [hasDotDot, Bool.or_eq_false_iff] at h
      rw [hasDotDot, Bool.or_eq_false_iff]
      exact ⟨h.1, ih (by simpa using h.2)⟩

theorem hasDotDot_append_right (a b : List Char) (h : hasDotDot (a ++ b) = false) :
    hasDotDot b = false := by
  induction a with
  | nil => simpa using h
  | cons x a ih =>
    simp only [List.cons_append] at h
    exact ih (hasDotDot_cons_tail x (a ++ b) h)

theorem splitSlashAux_no_dotdot (l : List Char) :
    ∀ cur, hasDotDot (cur.reverse ++ l) = false →
      ∀ s ∈ splitSlashAux l cur, hasDotDot s = false := by
  induction l with
  | nil =>
    intro cur h s hs
    rw [splitSlashAux] at hs
    rw [List.mem_singleton.mp hs]
    exact hasDotDot_append_left _ _ h
  | cons c rest ih =>
    intro cur h s hs
    rw [splitSlashAux] at hs
    by_cases hc : c = '/'
    · rw [if_pos hc] at hs
      rcases List.mem_cons.mp hs with hhead | htail
      · rw [hhead]
        exact hasDotDot_append_left _ _ h
      · refine ih [] ?_ s htail
        simpa using hasDotDot_append_right (cur.reverse ++ [c]) rest (by simpa using h)
    · rw [if_neg hc] at hs
      refine ih (c :: cur) ?_ s hs
      have hre : (c :: cur).reverse ++ rest = cur.reverse ++ (c :: rest) := by
        simp
      rw [hre]
      exact h

theorem sanChar_dot (c : Char) : sanChar c = '.' ↔ c = '.' := by
  constructor
  · intro h
    unfold sanChar at h
    by_cases hm : safeChars.contains c = true
    · rw [if_pos hm] at h; exact h
    · rw [if_neg hm] at h; exact absurd h (by decide)
  · intro h
    subst h
    decide

theorem sanChar_slash (c : Char) : sanChar c = '/' ↔ c = '/' := by
  constructor
  · intro h
    unfold sanChar at h
    by_cases hm : safeChars.contains c = true
    · rw [if_pos hm] at h; exact h
    · rw [if_neg hm] at h; exact absurd h (by decide)
  · intro h
    subst h
    decide

theorem hasDotDot_map_sanChar (l : List Char) (h : hasDotDot l = false) :
    hasDotDot (l.map sanChar) = false := by
  induction l with
  | nil => rfl
  | cons x l ih =>
    cases l with
    | nil => rfl
    | cons y rest =>
      rw [hasDotDot, Bool.or_eq_false_iff] at h
      simp only [List.map_cons]
      rw [hasDotDot, Bool.or_eq_false_iff]
      constructor
      · by_cases hx : sanChar x = '.'
        · by_cases hy : sanChar y = '.'
          · exfalso
            have hx' := (sanChar_dot x).mp hx
            have hy' := (sanChar_dot y).mp hy
            subst hx'; subst hy'
            exact absurd h.1 (by decide)
          · simp [hy]
        · simp [hx]
      · have := ih h.2
        simpa using this

theorem startsWithSlash_sanitize (s : String) :
    startsWithSlash (sanitize_filename s) = startsWithSlash s := by
  obtain ⟨l⟩ := s
  cases l with
  | nil => rfl
  | cons c rest =>
    show (sanChar c == '/') = (c == '/')
    by_cases hc : c = '/'
    · subst hc; rfl
    · have h1 : sanChar c ≠ '/' := fun h => hc ((sanChar_slash c).mp h)
      rw [beq_eq_false_iff_ne.mpr h1, beq_eq_false_iff_ne.mpr hc]

theorem resolvePath_extends (segs : List String) :
    ∀ acc, (∀ s ∈ segs, s ≠ "..") → ∃ tail, resolvePath acc segs = acc ++ tail := by
  induction segs with
  | nil => intro acc _; exact ⟨[], by simp [resolvePath]⟩
  | cons s rest ih =>
    intro acc hseg
    have hs : s ≠ ".." := hseg s (List.mem_cons_self s rest)
    have hrest : ∀ t ∈ rest, t ≠ ".." := fun t ht => hseg t (List.mem_cons_of_mem s ht)
    rw [resolvePath, if_neg hs]
    by_cases h0 : s = "" ∨ s = "."
    · rw [if_pos h0]
      exact ih acc hrest
    · rw [if_neg h0]
      obtain ⟨tail, htail⟩ := ih (acc ++ [s]) hrest
      exact ⟨s :: tail, by rw [htail]; simp⟩

theorem mem_enumFrom_snd {α : Type} (l : List α) :
    ∀ (i : Nat) (q : Nat × α), q ∈ l.enumFrom i → q.2 ∈ l := by
  induction l with
  | nil => intro i q h; exact absurd h (List.not_mem_nil q)
  | cons a l ih =>
    intro i q h
    rw [List.enumFrom_cons] at h
    rcases List.mem_cons.mp h with h1 | h2
    · rw [h1]; exact List.mem_cons_self a l
    · exact List.mem_cons_of_mem a (ih (i + 1) q h2)

theorem safeExtractGo_eq (extractOk : Nat → Bool) (members : List TarMember) :
    ∀ i, safeExtractGo extractOk i members =
      ((members.enumFrom i).filter
        (fun q => !(memberRejected q.2) && extractOk q.1)).map
        (fun q => sanitize_filename q.2.name) := by
  induction members with
  | nil => intro i; rfl
  | cons m rest ih =>
    intro i
    rw [List.enumFrom_cons]
    cases hrej : memberRejected m with
    | true =>
      rw [safeExtractGo, if_pos hrej, ih (i + 1)]
      rw [List.filter_cons]
      simp [hrej]
    | false =>
      rw [safeExtractGo, if_neg (by rw [hrej]; exact Bool.false_ne_true), ih (i + 1)]
      rw [List.filter_cons]
      cases hok : extractOk i with
      | true => simp [hrej, hok]
      | false => simp [hrej, hok]

/-- C4: for every archive (any member list) and any pattern of per-member
extraction failures: (1) exactly the members that are not links, not
absolute, and free of `..` — and whose individual extraction does not fail —
are extracted, each under its sanitized name, so a rejected member is never
extracted and a failing member skips only itself; (2) every extracted name
consists only of allow-listed characters (letters, digits, `-_./`);
(3) every extracted name resolves, joined under the destination directory,
to a path that still lies below the destination directory. -/
theorem C4_safe_extract_tar (extractOk : Nat → Bool) (members : List TarMember)
    (destSegs : List String) :
    safe_extract_tar extractOk members =
      ((members.enum.filter (fun q => !(memberRejected q.2) && extractOk q.1)).map
        (fun q => sanitize_filename q.2.name)) ∧
    (∀ nm ∈ safe_extract_tar extractOk members, ∀ c ∈ nm.data,
      safeChars.contains c = true) ∧
    (∀ nm ∈ safe_extract_tar extractOk members,
      ∃ tail, joinPath destSegs nm = destSegs ++ tail) := by
  have heq := safeExtractGo_eq extractOk members 0
  have hsrc : ∀ nm ∈ safe_extract_tar extractOk members,
      ∃ m, m ∈ members ∧ memberRejected m = false ∧ nm = sanitize_filename m.name := by
    intro nm hnm
    rw [safe_extract_tar, heq] at hnm
    obtain ⟨q, hq, hqnm⟩ := List.mem_map.mp hnm
    have hqf := List.mem_filter.mp hq
    have hmem : q ∈ members.enumFrom 0 := hqf.1
    have hcond := hqf.2
    rw [Bool.and_eq_true, Bool.not_eq_true'] at hcond
    exact ⟨q.2, mem_enumFrom_snd members 0 q hmem, hcond.1, hqnm.symm⟩
  refine ⟨heq, ?_, ?_⟩
  · intro nm hnm c hc
    obtain ⟨m, _, _, hsan⟩ := hsrc nm hnm
    subst hsan
    obtain ⟨c', _, hc'⟩ := List.mem_map.mp hc
    rw [← hc']
    exact sanChar_mem_safe c'
  · intro nm hnm
    obtain ⟨m, _, hrej, hsan⟩ := hsrc nm hnm
    have hnoslash : startsWithSlash m.name = false := by
      unfold memberRejected at hrej
      simp only [Bool.or_eq_false_iff] at hrej
      exact hrej.1.2
    have hnodd : hasDotDot m.name.data = false := by
      unfold memberRejected at hrej
      simp only [Bool.or_eq_false_iff] at hrej
      exact hrej.2
    have hnoslash' : startsWithSlash nm = false := by
      rw [hsan, startsWithSlash_sanitize]
      exact hnoslash
    have hnodd' : hasDotDot nm.data = false := by
      rw [hsan]
      exact hasDotDot_map_sanChar _ hnodd
    have hsegs : ∀ s ∈ splitSlash nm, s ≠ ".." := by
      intro s hs hcontra
      obtain ⟨l, hl, hls⟩ := List.mem_map.mp hs
      have hldd := splitSlashAux_no_dotdot nm.data [] (by simpa using hnodd') l hl
      rw [hcontra] at hls
      have : l = ['.', '.'] := by
        have := congrArg String.data hls
        simpa using this
      rw [this] at hldd
      exact absurd hldd (by decide)
    rw [joinPath, if_neg (by rw [hnoslash']; exact Bool.false_ne_true)]
    exact resolvePath_extends (splitSlash nm) destSegs hsegs

/-- Instantiation of C4: a benign two-member archive next to a traversal
member and an absolute member; only the benign ones are extracted and each
resolves below the destination. -/
theorem C4_witness :
    safe_extract_tar (fun _ => true)
        [⟨"../../etc/passwd", false, false⟩, ⟨"/etc/shadow", false, false⟩,
         ⟨"docs/x.tex", false, false⟩, ⟨"link", true, false⟩] = ["docs/x.tex"] ∧
    (∃ tail, joinPath ["dst"] "docs/x.tex" = ["dst"] ++ tail) := by
  constructor
  · have h := (C4_safe_extract_tar (fun _ => true)
      [⟨"../../etc/passwd", false, false⟩, ⟨"/etc/shadow", false, false⟩,
       ⟨"docs/x.tex", false, false⟩, ⟨"link", true, false⟩] ["dst"]).1
    rw [h]
    decide
  · exact (C4_safe_extract_tar (fun _ => true)
      [⟨"../../etc/passwd", false, false⟩, ⟨"/etc/shadow", false, false⟩,
       ⟨"docs/x.tex", false, false⟩, ⟨"link", true, false⟩] ["dst"]).2.2
      "docs/x.tex" (by decide)

/-! ### `metadata_collector.create_metadata`, `downloader.download`,
`main.download_worker`

The arxiv API record is a structure; `get_short_id()` renders
`"{base_id}v{version}"`.  Network and filesystem effects are oracles:
`fetch` returns `none` when metadata retrieval raises (after retries or a
fatal error), `urlOk`/`isTar` give the per-revision source-bundle outcomes,
and `saveOk` tells whether the `metadata.json` write succeeds
(`save_metadata` raising is caught inside `download` and only logged). -/

structure ArxivResult where
  baseId : String
  version : Nat
  title : String
  authors : List String
  published : String
  updated : String
  categories : List String
  summary : String
  comment : Option String
  doi : Option String
  deriving DecidableEq

/-- `result.get_short_id()`, e.g. `'2305.00633v4'`. -/
def get_short_id (r : ArxivResult) : String :=
  r.baseId ++ "v" ++ ⟨decChars r.version⟩

/-- Python `s.split(sep)` for a one-character separator. -/
def pySplitAux (sep : Char) : List Char → List Char → List (List Char)
  | [], cur => [cur.reverse]
  | c :: rest, cur =>
    if c = sep then cur.reverse :: pySplitAux sep rest []
    else pySplitAux sep rest (c :: cur)

def pySplit (sep : Char) (s : String) : List String :=
  (pySplitAux sep s.data []).map (fun l => ⟨l⟩)

/-- Python `int(s)` for a non-negative decimal literal; `none` models the
`ValueError` path. -/
def parseNat (s : String) : Option Nat :=
  if s.data ≠ [] ∧ s.data.all Char.isDigit then
    some (s.data.foldl (fun acc c => acc * 10 + (c.toNat - 48)) 0)
  else none

/-- `int(short_id.split('v')[1])`; `none` models the `IndexError` /
`ValueError` exception paths. -/
def parseVersionOf (s : String) : Option Nat :=
  match (pySplit 'v' s).get? 1 with
  | none => none
  | some vs => parseNat vs

/-- Python `.strip()` (whitespace trim). -/
def pyStrip (s : String) : String :=
  ⟨((s.data.dropWhile Char.isWhitespace).reverse.dropWhile Char.isWhitespace).reverse⟩

structure PaperMetadata where
  arxiv_id : String
  paper_title : String
  authors : List String
  submission_date : String
  revised_dates : List String
  latest_version : Nat
  categories : List String
  abstract : String
  pdf_urls : List String
  publication_venue : Option String
  doi : Option String
  deriving DecidableEq

/-- Embedding of `metadata_collector.create_metadata`; `none` models the
exception raised when the version suffix cannot be parsed. -/
def create_metadata (paper : ArxivResult) : Option PaperMetadata :=
  match parseVersionOf (get_short_id paper) with
  | none => none
  | some version =>
    let base_id := (pySplit 'v' (get_short_id paper)).getD 0 ""
    let pdf_urls :=
      if version > 1 then
        (List.range' 1 version).map
          (fun i => "http://arxiv.org/pdf/" ++ base_id ++ "v" ++ ⟨decChars i⟩)
      else ["http://arxiv.org/pdf/" ++ get_short_id paper]
    some { arxiv_id := base_id
           paper_title := pyStrip paper.title
           authors := paper.authors
           submission_date := paper.published
           revised_dates := if paper.updated ≠ paper.published then [paper.updated] else []
           latest_version := version
           categories := paper.categories
           abstract := pyStrip paper.summary
           pdf_urls := pdf_urls
           publication_venue :=
             match paper.comment with
             | some c => if c != "" then some (pyStrip c) else none
             | none => none
           doi := match paper.doi with
             | some d => if d != "" then some d else none
             | none => none }

structure DownloadEnv where
  urlOk : String → Bool
  isTar : String → Bool
  saveOk : Bool

/-- `re.match(r"^(\d{4}\.\d{5})", s)` (anchored prefix match). -/
def matchesLeading4dot5 (s : String) : Bool :=
  match s.data with
  | a :: b :: c :: d :: p :: e :: f :: g :: i :: j :: _ =>
    a.isDigit && b.isDigit && c.isDigit && d.isDigit && p == '.'
      && e.isDigit && f.isDigit && g.isDigit && i.isDigit && j.isDigit
  | _ => false

/-- Observable outcome of one `download(list_download, base_dir)` call:
the metadata that ended up in `metadata.json` (`none` when nothing was
written), the revision records the `for result in list_download` loop
iterated over in order, and the revisions whose source bundle was fetched
and passed the tar check. -/
structure DownloadOutcome where
  savedMetadata : Option PaperMetadata
  processedRecords : List ArxivResult
  extractedVersions : List String
  deriving DecidableEq

/-- Embedding of `downloader.download`.  Mirrors the source: empty list and
malformed first id return early (no metadata); otherwise the loop visits
`list_download` in order, and after the loop `save_metadata(result, ...)`
is called once on the leftover loop variable `result` — the *last* element
of `list_download`. -/
def download (env : DownloadEnv) (list_download : List ArxivResult) : DownloadOutcome :=
  match list_download with
  | [] => ⟨none, [], []⟩
  | first :: rest =>
    if matchesLeading4dot5 (get_short_id first) then
      let order := (first :: rest).map get_short_id
      let extracted := order.filter (fun fid => env.urlOk fid && env.isTar fid)
      let lastRec := (first :: rest).getLast (List.cons_ne_nil first rest)
      ⟨if env.saveOk then create_metadata lastRec else none, first :: rest, extracted⟩
    else ⟨none, [], []⟩

def mkVersionId (arxiv_id : String) (v : Nat) : String :=
  arxiv_id ++ "v" ++ ⟨decChars v⟩

/-- Fetch the metadata records for a list of version numbers (ascending
loop `for v in range(1, version_latest)`); any failure aborts the paper. -/
def fetchRange (fetch : String → Option ArxivResult) (arxiv_id : String) :
    List Nat → Option (List ArxivResult)
  | [] => some []
  | v :: rest =>
    match fetch (mkVersionId arxiv_id v) with
    | none => none
    | some r =>
      match fetchRange fetch arxiv_id rest with
      | none => none
      | some rs => some (r :: rs)

/-- Body of the `download_worker` try-block for one identifier: fetch the
latest record, parse its version, fetch versions `1..V-1`, then run
`download` on `[latest, v1, ..., v(V-1)]`.  `none` models any exception
(caught by the worker, which then skips the paper). -/
def downloadWorkerItem (fetch : String → Option ArxivResult) (env : DownloadEnv)
    (arxiv_id : String) : Option DownloadOutcome :=
  match fetch arxiv_id with
  | none => none
  | some result_latest =>
    match parseVersionOf (get_short_id result_latest) with
    | none => none
    | some version_latest =>
      match fetchRange fetch arxiv_id (List.range' 1 (version_latest - 1)) with
      | none => none
      | some olds => some (download env (result_latest :: olds))

/-- The `download_worker` queue loop: consume until the `None` sentinel,
emit the identifier on the result queue only when the item body raised no
exception, forward one sentinel and stop on `None`. -/
def download_worker (fetch : String → Option ArxivResult) (env : DownloadEnv) :
    List (Option String) → List (Option String)
  | [] => []
  | none :: _ => [none]
  | some arxiv_id :: rest =>
    (match downloadWorkerItem fetch env arxiv_id with
     | some _ => [some arxiv_id]
     | none => []) ++ download_worker fetch env rest

/-- Latest revision record of the two-revision example paper. -/
def rec_v2 : ArxivResult :=
  ⟨"2305.00633", 2, "T2", ["A"], "2023-05-01", "2023-06-01", ["cs.LG"], "S2", none, none⟩

/-- Version-1 record of the two-revision example paper. -/
def rec_v1 : ArxivResult :=
  ⟨"2305.00633", 1, "T1", ["A"], "2023-05-01", "2023-05-01", ["cs.LG"], "S1", none, none⟩

/-- Oracle returning the example paper's records. -/
def fetchC : String → Option ArxivResult :=
  fun s => if s == "2305.00633" then some rec_v2
    else if s == "2305.00633v1" then some rec_v1
    else none

/-- Benign environment: every bundle downloads, validates and saves. -/
def env0 : DownloadEnv := ⟨fun _ => true, fun _ => true, true⟩

/-- Environment in which the `metadata.json` write fails. -/
def envNoSave : DownloadEnv := ⟨fun _ => true, fun _ => true, false⟩

/-- C2: evaluation of `download` at a paper with latest version 2.  The
worker builds `list_download = [latest, v1]`, and `save_metadata(result, …)`
after the loop uses the leftover loop variable — the version-1 record — so
the persisted `latest_version` is 1, not the paper's latest version 2
(metadata is still written exactly once, after both revisions). -/
theorem C2_code_bug_evaluation :
    (download env0 [rec_v2, rec_v1]).processedRecords = [rec_v2, rec_v1] ∧
    ((download env0 [rec_v2, rec_v1]).savedMetadata.map PaperMetadata.latest_version)
      = some 1 ∧
    rec_v2.version = 2 ∧
    ((download env0 [rec_v2, rec_v1]).savedMetadata.map PaperMetadata.latest_version)
      ≠ some rec_v2.version := by
  refine ⟨by decide, by decide, by decide, by decide⟩

/-- C3 counterexample: for the two-revision paper the worker fetches the
latest revision first (it needs it to learn `version_latest`), so the
processing order is `[v2, v1]`, not the claimed ascending `[v1, v2]`. -/
theorem C3_counterexample :
    ((downloadWorkerItem fetchC env0 "2305.00633").map
      (fun o => o.processedRecords.map ArxivResult.version)) = some [2, 1] ∧
    some [2, 1] ≠ some ([1, 2] : List Nat) := by
  refine ⟨by decide, by decide⟩

theorem fetchRange_spec (fetch : String → Option ArxivResult) (arxiv_id : String) :
    ∀ vs : List Nat,
      (∀ v ∈ vs, ∃ r, fetch (mkVersionId arxiv_id v) = some r ∧ r.version = v) →
      ∃ rs, fetchRange fetch arxiv_id vs = some rs ∧
        rs.map ArxivResult.version = vs := by
  intro vs
  induction vs with
  | nil => intro _; exact ⟨[], rfl, rfl⟩
  | cons v rest ih =>
    intro hall
    obtain ⟨r, hr, hv⟩ := hall v (List.mem_cons_self v rest)
    obtain ⟨rs, hrs, hmap⟩ := ih (fun w hw => hall w (List.mem_cons_of_mem v hw))
    refine ⟨r :: rs, ?_, ?_⟩
    · rw [fetchRange, hr, hrs]
    · rw [List.map_cons, hv, hmap]

/-- C3 (amended): within a single worker, the latest revision is fetched
and processed first (it determines `version_latest`), followed by the
older revisions `1..V-1` in ascending order — i.e. processing order is
`V, 1, 2, ..., V-1`, not `1, ..., V`. -/
theorem C3_processing_order (fetch : String → Option ArxivResult) (env : DownloadEnv)
    (arxiv_id : String) (latest : ArxivResult) (V : Nat)
    (hf : fetch arxiv_id = some latest)
    (hparse : parseVersionOf (get_short_id latest) = some V)
    (hV : latest.version = V)
    (hmatch : matchesLeading4dot5 (get_short_id latest) = true)
    (holds : ∀ v ∈ List.range' 1 (V - 1),
      ∃ r, fetch (mkVersionId arxiv_id v) = some r ∧ r.version = v) :
    ∃ out, downloadWorkerItem fetch env arxiv_id = some out ∧
      out.processedRecords.map ArxivResult.version = V :: List.range' 1 (V - 1) := by
  obtain ⟨olds, holds', hmap⟩ := fetchRange_spec fetch arxiv_id (List.range' 1 (V - 1)) holds
  refine ⟨download env (latest :: olds), ?_, ?_⟩
  · simp only [downloadWorkerItem, hf, hparse, holds']
  · rw [download, if_pos hmatch]
    show (latest :: olds).map ArxivResult.version = _
    rw [List.map_cons, hV, hmap]

/-- Instantiation of C3 (amended) on the two-revision example paper. -/
theorem C3_witness :
    ∃ out, downloadWorkerItem fetchC env0 "2305.00633" = some out ∧
      out.processedRecords.map ArxivResult.version = 2 :: List.range' 1 1 :=
  C3_processing_order fetchC env0 "2305.00633" rec_v2 2 (by decide) (by decide)
    (by decide) (by decide)
    (by
      intro v hv
      have hv1 : v = 1 := by
        have := List.mem_range'_1.mp hv
        omega
      subst hv1
      exact ⟨rec_v1, by decide, by decide⟩)

theorem download_savedMetadata_none (env : DownloadEnv) (l : List ArxivResult)
    (hsave : env.saveOk = false) : (download env l).savedMetadata = none := by
  match l with
  | [] => rfl
  | first :: rest =>
    rw [download]
    by_cases hm : matchesLeading4dot5 (get_short_id first) = true
    · rw [if_pos hm]
      show (if env.saveOk then _ else none) = none
      rw [hsave]
      rfl
    · rw [if_neg hm]

/-- C7 (amended): the worker emits the identifier on the result queue
exactly when the item body raised no exception — i.e. when the metadata
records of all revisions were fetched and parsed; whether `metadata.json`
was actually saved plays no role, and in particular when the save fails
(`saveOk = false`) nothing was persisted yet the identifier is still
emitted. -/
theorem C7_emission_iff_item_success (fetch : String → Option ArxivResult)
    (env : DownloadEnv) (arxiv_id : String) (rest : List (Option String)) :
    (∀ out, downloadWorkerItem fetch env arxiv_id = some out →
      download_worker fetch env (some arxiv_id :: rest) =
        some arxiv_id :: download_worker fetch env rest ∧
      (env.saveOk = false → out.savedMetadata = none)) ∧
    (downloadWorkerItem fetch env arxiv_id = none →
      download_worker fetch env (some arxiv_id :: rest) =
        download_worker fetch env rest) := by
  constructor
  · intro out hout
    constructor
    · rw [download_worker, hout]
      rfl
    · intro hsave
      have hex : ∃ l, out = download env l := by
        unfold downloadWorkerItem at hout
        split at hout
        · exact absurd hout (by simp)
        · split at hout
          · exact absurd hout (by simp)
          · split at hout
            · exact absurd hout (by simp)
            · exact ⟨_, (Option.some.inj hout).symm⟩
      obtain ⟨l, hl⟩ := hex
      rw [hl]
      exact download_savedMetadata_none env l hsave
  · intro hnone
    rw [download_worker, hnone]
    rfl

/-- C7 counterexample: with a failing `metadata.json` write the paper's
metadata is not saved (`savedMetadata = none`), yet `download` returns
normally (the exception is caught inside it), so the worker still pushes
the identifier onto the result queue. -/
theorem C7_counterexample :
    download_worker fetchC envNoSave [some "2305.00633", none] =
      [some "2305.00633", none] ∧
    (downloadWorkerItem fetchC envNoSave "2305.00633").map DownloadOutcome.savedMetadata
      = some none := by
  refine ⟨by decide, by decide⟩

/-- Instantiation of C7 (amended) on the example paper with a failing save. -/
theorem C7_witness :
    download_worker fetchC envNoSave [some "2305.00633"] = [some "2305.00633"] := by
  cases hitem : downloadWorkerItem fetchC envNoSave "2305.00633" with
  | none => exact absurd hitem (by decide)
  | some out =>
    have h := (C7_emission_iff_item_success fetchC envNoSave "2305.00633" []).1 out hitem
    exact h.1.trans rfl

/-! ### `main.download_with_retries`

Each attempt's outcome is an oracle: success, a throttling error
(`"HTTP 429"`/`"HTTP 503"` in the message), or any other error.  The
jitter drawn by `random.uniform(0, 5)` on attempt `i` is the oracle
`jitter i`.  The trace records the outcome, the number of attempts made
(oracle calls) and the sleep durations in order. -/

inductive FetchTry where
  | success (r : ArxivResult)
  | throttle
  | fatal
  deriving DecidableEq

inductive RetryResult where
  | ok (r : ArxivResult)
  | fatalError
  | gaveUp
  deriving DecidableEq

structure RetryTrace where
  outcome : RetryResult
  attempts : Nat
  waits : List ℚ
  deriving DecidableEq

def retriesGo (oracle : Nat → FetchTry) (jitter : Nat → ℚ) : Nat → Nat → RetryTrace
  | _, 0 => ⟨.gaveUp, 0, []⟩
  | attempt, fuel + 1 =>
    match oracle attempt with
    | .success r => ⟨.ok r, 1, []⟩
    | .fatal => ⟨.fatalError, 1, []⟩
    | .throttle =>
      let wait : ℚ := min (60 * 2 ^ attempt) 600 + jitter attempt
      let rest := retriesGo oracle jitter (attempt + 1) fuel
      ⟨rest.outcome, rest.attempts + 1, wait :: rest.waits⟩

/-- Embedding of `main.download_with_retries` with `max_retries = 5`. -/
def download_with_retries (oracle : Nat → FetchTry) (jitter : Nat → ℚ) : RetryTrace :=
  retriesGo oracle jitter 0 5

theorem retriesGo_bounds (oracle : Nat → FetchTry) (jitter : Nat → ℚ) :
    ∀ fuel attempt, (retriesGo oracle jitter attempt fuel).attempts ≤ fuel ∧
      (retriesGo oracle jitter attempt fuel).waits.length ≤ fuel := by
  intro fuel
  induction fuel with
  | zero => intro attempt; exact ⟨Nat.le_refl 0, Nat.le_refl 0⟩
  | succ fuel ih =>
    intro attempt
    rw [retriesGo]
    match oracle attempt with
    | .success r =>
      refine ⟨?_, ?_⟩
      · show (1 : Nat) ≤ fuel + 1
        omega
      · show (0 : Nat) ≤ fuel + 1
        omega
    | .fatal =>
      refine ⟨?_, ?_⟩
      · show (1 : Nat) ≤ fuel + 1
        omega
      · show (0 : Nat) ≤ fuel + 1
        omega
    | .throttle =>
      have hrec := ih (attempt + 1)
      refine ⟨?_, ?_⟩
      · show (retriesGo oracle jitter (attempt + 1) fuel).attempts + 1 ≤ fuel + 1
        omega
      · show (retriesGo oracle jitter (attempt + 1) fuel).waits.length + 1 ≤ fuel + 1
        omega

theorem retriesGo_waits (oracle : Nat → FetchTry) (jitter : Nat → ℚ) :
    ∀ fuel attempt i, i < (retriesGo oracle jitter attempt fuel).waits.length →
      (retriesGo oracle jitter attempt fuel).waits.get? i =
        some (min (60 * 2 ^ (attempt + i)) 600 + jitter (attempt + i)) := by
  intro fuel
  induction fuel with
  | zero => intro attempt i h; exact absurd h (by simp [retriesGo])
  | succ fuel ih =>
    intro attempt i h
    rw [retriesGo] at h ⊢
    match horacle : oracle attempt with
    | .success r => rw [horacle] at h; exact absurd h (by simp)
    | .fatal => rw [horacle] at h; exact absurd h (by simp)
    | .throttle =>
      rw [horacle] at h
      match i with
      | 0 =>
        show some _ = some _
        rw [show attempt + 0 = attempt by omega]
      | i + 1 =>
        have h' : i < (retriesGo oracle jitter (attempt + 1) fuel).waits.length :=
          Nat.succ_lt_succ_iff.mp h
        have hrec := ih (attempt + 1) i h'
        show (retriesGo oracle jitter (attempt + 1) fuel).waits.get? i = _
        rw [hrec, show attempt + 1 + i = attempt + (i + 1) by omega]

theorem retriesGo_fatal (oracle : Nat → FetchTry) (jitter : Nat → ℚ) :
    ∀ i fuel attempt, i < fuel →
      (∀ j, j < i → oracle (attempt + j) = .throttle) →
      oracle (attempt + i) = .fatal →
      (retriesGo oracle jitter attempt fuel).outcome = .fatalError ∧
      (retriesGo oracle jitter attempt fuel).attempts = i + 1 ∧
      (retriesGo oracle jitter attempt fuel).waits.length = i := by
  intro i
  induction i with
  | zero =>
    intro fuel attempt hfuel _ hfatal
    match fuel, hfuel with
    | fuel + 1, _ =>
      rw [retriesGo]
      rw [show attempt + 0 = attempt by omega] at hfatal
      rw [hfatal]
      exact ⟨rfl, rfl, rfl⟩
  | succ i ih =>
    intro fuel attempt hfuel hthr hfatal
    match fuel, hfuel with
    | fuel + 1, _ =>
      rw [retriesGo]
      have h0 : oracle attempt = .throttle := by
        have := hthr 0 (by omega)
        rwa [show attempt + 0 = attempt by omega] at this
      rw [h0]
      have hrec := ih fuel (attempt + 1) (by omega)
        (fun j hj => by
          have := hthr (j + 1) (by omega)
          rwa [show attempt + (j + 1) = attempt + 1 + j by omega] at this)
        (by rwa [show attempt + 1 + i = attempt + (i + 1) by omega])
      refine ⟨hrec.1, ?_, ?_⟩
      · show (retriesGo oracle jitter (attempt + 1) fuel).attempts + 1 = i + 1 + 1
        rw [hrec.2.1]
      · show (retriesGo oracle jitter (attempt + 1) fuel).waits.length + 1 = i + 1
        rw [hrec.2.2]

theorem retriesGo_gaveUp (oracle : Nat → FetchTry) (jitter : Nat → ℚ) :
    ∀ fuel attempt, (∀ j, j < fuel → oracle (attempt + j) = .throttle) →
      (retriesGo oracle jitter attempt fuel).outcome = .gaveUp ∧
      (retriesGo oracle jitter attempt fuel).attempts = fuel := by
  intro fuel
  induction fuel with
  | zero => intro attempt _; exact ⟨rfl, rfl⟩
  | succ fuel ih =>
    intro attempt hthr
    rw [retriesGo]
    have h0 : oracle attempt = .throttle := by
      have := hthr 0 (by omega)
      rwa [show attempt + 0 = attempt by omega] at this
    rw [h0]
    have hrec := ih (attempt + 1) (fun j hj => by
      have := hthr (j + 1) (by omega)
      rwa [show attempt + (j + 1) = attempt + 1 + j by omega] at this)
    refine ⟨hrec.1, ?_⟩
    show (retriesGo oracle jitter (attempt + 1) fuel).attempts + 1 = fuel + 1
    rw [hrec.2]

/-- C6: on throttling (HTTP 429/503), attempt `i` sleeps exactly
`min(60·2^i, 600) + jitter(i)` seconds with jitter in `[0, 5)`; at most 5
attempts are made, after which the fetch gives up; a non-throttling error
ends the run immediately with no further attempt and no wait; and a failed
item makes the worker skip that paper and advance to the next queue item. -/
theorem C6_retry_backoff_policy (oracle : Nat → FetchTry) (jitter : Nat → ℚ)
    (hj : ∀ i, 0 ≤ jitter i ∧ jitter i < 5) :
    (∀ i (h : i < (download_with_retries oracle jitter).waits.length),
      (download_with_retries oracle jitter).waits.get ⟨i, h⟩ =
        min (60 * 2 ^ i) 600 + jitter i ∧
      min (60 * 2 ^ i) 600 ≤ (download_with_retries oracle jitter).waits.get ⟨i, h⟩ ∧
      (download_with_retries oracle jitter).waits.get ⟨i, h⟩ < min (60 * 2 ^ i) 600 + 5) ∧
    (download_with_retries oracle jitter).attempts ≤ 5 ∧
    (∀ i, i < 5 → (∀ j, j < i → oracle j = .throttle) → oracle i = .fatal →
      (download_with_retries oracle jitter).outcome = .fatalError ∧
      (download_with_retries oracle jitter).attempts = i + 1 ∧
      (download_with_retries oracle jitter).waits.length = i) ∧
    ((∀ j, j < 5 → oracle j = .throttle) →
      (download_with_retries oracle jitter).outcome = .gaveUp ∧
      (download_with_retries oracle jitter).attempts = 5) ∧
    (∀ (fetch : String → Option ArxivResult) (env : DownloadEnv) (arxiv_id : String)
      (rest : List (Option String)), downloadWorkerItem fetch env arxiv_id = none →
      download_worker fetch env (some arxiv_id :: rest) =
        download_worker fetch env rest) := by
  refine ⟨?_, ?_, ?_, ?_, ?_⟩
  · intro i h
    have hw : (download_with_retries oracle jitter).waits.get? i =
        some (min (60 * 2 ^ i) 600 + jitter i) := by
      have hw0 := retriesGo_waits oracle jitter 5 0 i h
      rw [show (0 : Nat) + i = i by omega] at hw0
      exact hw0
    have hg : (download_with_retries oracle jitter).waits.get? i =
        some ((download_with_retries oracle jitter).waits.get ⟨i, h⟩) :=
      List.get?_eq_get h
    rw [hg] at hw
    have hval := Option.some.inj hw
    refine ⟨hval, ?_, ?_⟩
    · rw [hval]
      have := (hj i).1
      linarith
    · rw [hval]
      have := (hj i).2
      linarith
  · exact (retriesGo_bounds oracle jitter 5 0).1
  · intro i hi hthr hfatal
    exact retriesGo_fatal oracle jitter i 5 0 hi
      (fun j hj' => by rw [show (0 : Nat) + j = j by omega]; exact hthr j hj')
      (by rw [show (0 : Nat) + i = i by omega]; exact hfatal)
  · intro hthr
    exact retriesGo_gaveUp oracle jitter 5 0
      (fun j hj' => by rw [show (0 : Nat) + j = j by omega]; exact hthr j hj')
  · intro fetch env arxiv_id rest hnone
    rw [download_worker, hnone]
    rfl

/-- Attempt oracle: throttled once, then a fatal (non-throttling) error. -/
def oc16 : Nat → FetchTry := fun i => if i = 0 then .throttle else .fatal

/-- Instantiation of C6: one throttled attempt (waiting `60 + 1` seconds),
then a fatal error that propagates with no further attempt. -/
theorem C6_witness :
    (download_with_retries oc16 (fun _ => 1)).outcome = .fatalError ∧
    (download_with_retries oc16 (fun _ => 1)).attempts = 2 ∧
    (download_with_retries oc16 (fun _ => 1)).waits.length = 1 := by
  have h := C6_retry_backoff_policy oc16 (fun _ => 1)
    (fun i => ⟨by norm_num, by norm_num⟩)
  exact h.2.2.1 1 (by omega)
    (fun j hj => by
      have hj0 : j = 0 := by omega
      subst hj0
      rfl)
    rfl

/-! ### `main.fetch_ids_worker` and the sentinel protocol (coordinator)

The concurrent system is a small-step transition relation: the shared ID
queue is the `pending` list (items are consumed in FIFO order by whichever
worker is scheduled), and each of the `k` download workers either forwards
per-item output to the result queue or, on the `None` sentinel, pushes one
sentinel and becomes finished — the exact loop of `download_worker`.  A
finished worker takes no further items. -/

/-- Embedding of `main.fetch_ids_worker`'s queue output: the selected ids,
then one `None` sentinel per download worker. -/
def fetch_ids_worker (selectedIds : List String) (k : Nat) : List (Option String) :=
  selectedIds.map some ++ List.replicate k none

def countNone {α : Type} (l : List (Option α)) : Nat :=
  l.countP (fun x => x.isNone)

structure PipeState (k : Nat) where
  pending : List (Option String)
  finishedW : Fin k → Bool
  sentCount : Fin k → Nat
  resultQ : List (Option String)

/-- One scheduler step: a not-yet-finished worker `w` pops the queue head.
A `some id` item yields `[some id]` on success (`ok id`) and nothing on a
logged skip; the `none` sentinel makes `w` push one sentinel and finish. -/
inductive PipeStep (k : Nat) (ok : String → Bool) : PipeState k → PipeState k → Prop where
  | consumeId (s : PipeState k) (w : Fin k) (id : String) (rest : List (Option String))
      (hpend : s.pending = some id :: rest) (hrun : s.finishedW w = false) :
      PipeStep k ok s ⟨rest, s.finishedW, s.sentCount,
        s.resultQ ++ if ok id then [some id] else []⟩
  | consumeSentinel (s : PipeState k) (w : Fin k) (rest : List (Option String))
      (hpend : s.pending = none :: rest) (hrun : s.finishedW w = false) :
      PipeStep k ok s ⟨rest, Function.update s.finishedW w true,
        Function.update s.sentCount w (s.sentCount w + 1), s.resultQ ++ [none]⟩

def initState (ids : List String) (k : Nat) : PipeState k :=
  ⟨fetch_ids_worker ids k, fun _ => false, fun _ => 0, []⟩

def Reachable (k : Nat) (ok : String → Bool) : PipeState k → PipeState k → Prop :=
  Relation.ReflTransGen (PipeStep k ok)

/-- System invariant: each worker has pushed a sentinel iff it is finished
(and then exactly one); result-queue sentinels count the finished workers;
pending sentinels and pushed sentinels always total `k`. -/
def PipeInv (k : Nat) (s : PipeState k) : Prop :=
  (∀ w, s.sentCount w = if s.finishedW w then 1 else 0) ∧
  countNone s.resultQ = ∑ w : Fin k, s.sentCount w ∧
  countNone s.pending + ∑ w : Fin k, s.sentCount w = k

theorem countNone_append {α : Type} (a b : List (Option α)) :
    countNone (a ++ b) = countNone a + countNone b :=
  List.countP_append _ a b

theorem countNone_map_some (ids : List String) :
    countNone (ids.map some) = 0 := by
  rw [countNone, List.countP_eq_zero]
  intro x hx
  obtain ⟨y, _, hy⟩ := List.mem_map.mp hx
  rw [← hy]
  simp

theorem countNone_replicate_none {α : Type} (k : Nat) :
    countNone (List.replicate k (none : Option α)) = k := by
  rw [countNone]
  have := List.countP_eq_length (l := List.replicate k (none : Option α))
    (p := fun x => x.isNone)
  rw [this.mpr, List.length_replicate]
  intro a ha
  rw [List.eq_of_mem_replicate ha]
  rfl

theorem initState_inv (ids : List String) (k : Nat) : PipeInv k (initState ids k) := by
  refine ⟨fun w => rfl, ?_, ?_⟩
  · show countNone ([] : List (Option String)) = ∑ _w : Fin k, 0
    rw [Finset.sum_const_zero]
    rfl
  · show countNone (fetch_ids_worker ids k) + ∑ _w : Fin k, 0 = k
    rw [Finset.sum_const_zero, fetch_ids_worker, countNone_append,
      countNone_map_some, countNone_replicate_none]
    omega

theorem pipeStep_inv (k : Nat) (ok : String → Bool) (s t : PipeState k)
    (hstep : PipeStep k ok s t) (hinv : PipeInv k s) : PipeInv k t := by
  obtain ⟨inv1, inv2, inv3⟩ := hinv
  cases hstep with
  | consumeId w id rest hpend hrun =>
    refine ⟨inv1, ?_, ?_⟩
    · show countNone (s.resultQ ++ _) = _
      rw [countNone_append, inv2]
      have : countNone (if ok id then [some id] else []) = 0 := by
        cases ok id <;> rfl
      rw [this, Nat.add_zero]
    · show countNone rest + _ = k
      have : countNone s.pending = countNone rest := by
        rw [hpend, countNone, List.countP_cons]
        rfl
      rw [← this]
      exact inv3
  | consumeSentinel w rest hpend hrun =>
    have hw0 : s.sentCount w = 0 := by
      rw [inv1 w, hrun]
      rfl
    have hsum : ∑ x : Fin k, Function.update s.sentCount w (s.sentCount w + 1) x =
        (∑ x : Fin k, s.sentCount x) + 1 := by
      rw [Finset.sum_update_of_mem (Finset.mem_univ w)]
      have hsplit : ∑ x ∈ Finset.univ \ {w}, s.sentCount x + s.sentCount w =
          ∑ x : Fin k, s.sentCount x := by
        rw [← Finset.erase_eq]
        exact Finset.sum_erase_add Finset.univ s.sentCount (Finset.mem_univ w)
      omega
    refine ⟨?_, ?_, ?_⟩
    · intro w'
      show Function.update s.sentCount w (s.sentCount w + 1) w' =
        if Function.update s.finishedW w true w' = true then 1 else 0
      by_cases hww : w' = w
      · subst hww
        rw [Function.update_same, Function.update_same, hw0, if_pos rfl]
      · rw [Function.update_noteq hww, Function.update_noteq hww]
        exact inv1 w'
    · show countNone (s.resultQ ++ [none]) =
        ∑ x : Fin k, Function.update s.sentCount w (s.sentCount w + 1) x
      rw [countNone_append, inv2, hsum]
      rfl
    · show countNone rest +
        ∑ x : Fin k, Function.update s.sentCount w (s.sentCount w + 1) x = k
      rw [hsum]
      have hcnt : countNone s.pending = countNone rest + 1 := by
        rw [hpend, countNone, List.countP_cons]
        rfl
      omega

theorem reachable_inv (ids : List String) (k : Nat) (ok : String → Bool)
    (s : PipeState k) (h : Reachable k ok (initState ids k) s) : PipeInv k s := by
  induction h with
  | refl => exact initState_inv ids k
  | tail _ hstep ih => exact pipeStep_inv k ok _ _ hstep ih

/-- C5: the resolver output carries exactly one sentinel per download
worker, all after the identifiers; in every reachable state of the
pipeline each worker has pushed at most one sentinel, and has pushed one
exactly when it has received one (so no worker pushes a sentinel before
receiving one); and when the ID queue is fully drained the result queue
has received exactly `k` sentinels — one from each worker, every worker
having exited. -/
theorem C5_sentinel_protocol (ids : List String) (k : Nat) (ok : String → Bool)
    (s : PipeState k) (hk : 0 < k)
    (hreach : Reachable k ok (initState ids k) s) :
    (countNone (fetch_ids_worker ids k) = k ∧
      fetch_ids_worker ids k = ids.map some ++ List.replicate k none) ∧
    (∀ w, s.sentCount w ≤ 1 ∧ (s.sentCount w = 1 ↔ s.finishedW w = true)) ∧
    (s.pending = [] →
      countNone s.resultQ = k ∧ ∀ w, s.sentCount w = 1 ∧ s.finishedW w = true) := by
  obtain ⟨inv1, inv2, inv3⟩ := reachable_inv ids k ok s hreach
  refine ⟨⟨?_, rfl⟩, ?_, ?_⟩
  · rw [fetch_ids_worker, countNone_append, countNone_map_some,
      countNone_replicate_none]
    omega
  · intro w
    rw [inv1 w]
    by_cases hf : s.finishedW w = true
    · rw [if_pos hf]
      exact ⟨Nat.le_refl 1, by simp [hf]⟩
    · rw [if_neg hf]
      refine ⟨by omega, ?_⟩
      constructor
      · intro h01
        exact absurd h01 (by omega)
      · intro htrue
        exact absurd htrue hf
  · intro hdrained
    have hzero : countNone s.pending = 0 := by rw [hdrained]; rfl
    have hsumk : ∑ w : Fin k, s.sentCount w = k := by omega
    have hle : ∀ w : Fin k, s.sentCount w ≤ 1 := by
      intro w
      rw [inv1 w]
      by_cases hf : s.finishedW w = true
      · rw [if_pos hf]
      · rw [if_neg hf]; omega
    have hall : ∀ w : Fin k, s.sentCount w = 1 := by
      by_contra hcon
      push_neg at hcon
      obtain ⟨w0, hw0⟩ := hcon
      have hw00 : s.sentCount w0 = 0 := by
        have := hle w0
        omega
      have hsplit : ∑ x ∈ Finset.univ.erase w0, s.sentCount x + s.sentCount w0 =
          ∑ x : Fin k, s.sentCount x :=
        Finset.sum_erase_add Finset.univ s.sentCount (Finset.mem_univ w0)
      have hbound : ∑ x ∈ Finset.univ.erase w0, s.sentCount x ≤
          (Finset.univ.erase w0).card * 1 :=
        Finset.sum_le_card_nsmul _ _ 1 (fun x _ => hle x)
      have hcard : (Finset.univ.erase w0).card = k - 1 := by
        rw [Finset.card_erase_of_mem (Finset.mem_univ w0), Finset.card_univ,
          Fintype.card_fin]
      omega
    refine ⟨by rw [inv2, hsumk], fun w => ⟨hall w, ?_⟩⟩
    have := inv1 w
    rw [hall w] at this
    by_cases hf : s.finishedW w = true
    · exact hf
    · rw [if_neg hf] at this
      exact absurd this (by omega)

/-- Final state of a one-worker run on the single id `"a"`. -/
def c5FinalState : PipeState 1 :=
  ⟨[], Function.update (fun _ => false) 0 true,
    Function.update (fun _ => 0) 0 (0 + 1), ([] ++ [some "a"]) ++ [none]⟩

/-- Instantiation of C5: one worker, one id; after draining, the result
queue holds exactly one sentinel and the worker pushed exactly one. -/
theorem C5_witness :
    countNone c5FinalState.resultQ = 1 ∧ c5FinalState.sentCount 0 = 1 := by
  have hstep1 : PipeStep 1 (fun _ => true) (initState ["a"] 1)
      ⟨[none], fun _ => false, fun _ => 0, [some "a"]⟩ :=
    PipeStep.consumeId (initState ["a"] 1) 0 "a" [none] rfl rfl
  have hstep2 : PipeStep 1 (fun _ => true)
      ⟨[none], fun _ => false, fun _ => 0, [some "a"]⟩ c5FinalState :=
    PipeStep.consumeSentinel ⟨[none], fun _ => false, fun _ => 0, [some "a"]⟩ 0 [] rfl rfl
  have hreach : Reachable 1 (fun _ => true) (initState ["a"] 1) c5FinalState :=
    Relation.ReflTransGen.tail (Relation.ReflTransGen.single hstep1) hstep2
  have h := C5_sentinel_protocol ["a"] 1 (fun _ => true) c5FinalState (by omega) hreach
  have h2 := h.2.2 rfl
  exact ⟨h2.1, (h2.2 0).1⟩

end ArxivPipeline
